import Mathlib

/-!
Shallow embedding of `src/munchmates/data/construct.py`.

The script reads a line-delimited ingredients file and builds
  * `ingr_dict` : a Python dict mapping squashed alias keys to canonical forms,
  * `words`     : a flat list of whitespace-split sub-words,
and serializes both as JSON.

Strings are modelled as `List Char`.  The Python whitespace class
(`str.strip`, `str.split()`, regex `\s`) is modelled by the ASCII
whitespace characters `isWS`.  Python `str.lower` is modelled by the
ASCII `Char.toLower`.  Unicode NFKC normalization is kept abstract: the
pipeline is parametric in a function `nfkc : List Char → List Char`,
instantiated with `id` on concrete ASCII inputs (NFKC is the identity
on ASCII text).

The Python dict is modelled as an association list to which each
assignment `ingr_dict[k] = v` prepends `(k, v)`; `lookupA` returns the
value of the most recent assignment, exactly how dict lookup
behaves.
-/

namespace MunchMates

/-- ASCII whitespace, the characters matched by the Python regex `\s` on ASCII text
and stripped by `str.strip()` / split on by `str.split()`. -/
def isWS (c : Char) : Bool :=
  c = ' ' || c = '\t' || c = '\n' || c = '\x0b' || c = '\x0c' || c = '\r'

/-- Python `str.lower()` (ASCII model). -/
def lowerStr (s : List Char) : List Char := s.map Char.toLower

/-- Drop the leading run of whitespace. -/
def dropWS : List Char → List Char
  | [] => []
  | c :: cs => if isWS c then dropWS cs else c :: cs

/-- Python `str.strip()`: remove leading and trailing whitespace. -/
def strip (s : List Char) : List Char := (dropWS (dropWS s).reverse).reverse

/-- Python `s.split(",")`: split on every literal comma; never empty,
keeps empty fields. -/
def splitComma : List Char → List (List Char)
  | [] => [[]]
  | c :: cs =>
    if c = ',' then [] :: splitComma cs
    else
      match splitComma cs with
      | [] => [[c]]
      | t :: ts => (c :: t) :: ts

/-- Python `re.sub(r"\s", "", s)`: delete every whitespace character. -/
def squash (s : List Char) : List Char := s.filter (fun c => !isWS c)

/-- Helper for `collapseWS`; the flag records whether the previous
character was whitespace (i.e. we are inside a run already replaced). -/
def collapseAux : Bool → List Char → List Char
  | _, [] => []
  | inRun, c :: cs =>
    if isWS c then
      if inRun then collapseAux true cs else ' ' :: collapseAux true cs
    else c :: collapseAux false cs

/-- Python `re.sub(r"\s+", " ", s)`: replace every maximal run of
whitespace by a single space. -/
def collapseWS (s : List Char) : List Char := collapseAux false s

/-- Helper for `splitWS`; `acc` is the current word, reversed. -/
def splitWSAux : List Char → List Char → List (List Char)
  | [], acc => if acc.isEmpty then [] else [acc.reverse]
  | c :: cs, acc =>
    if isWS c then
      if acc.isEmpty then splitWSAux cs [] else acc.reverse :: splitWSAux cs []
    else splitWSAux cs (c :: acc)

/-- Python `str.split()` with no separator: split on whitespace runs,
discarding empty words. -/
def splitWS (s : List Char) : List (List Char) := splitWSAux s []

/-- The two accumulators of the script. -/
structure ConstructState where
  ingr_dict : List (List Char × List Char)
  words : List (List Char)
  deriving DecidableEq

/-- Tokens of one line, `normalized.strip().split(",")` (`nfkc` models
`unicodedata.normalize("NFKC", ·)`). -/
def tokensOf (nfkc : List Char → List Char) (line : List Char) : List (List Char) :=
  splitComma (strip (nfkc line))

/-- Canonical form of a line, `re.sub(r"\s+", " ", ingrs[0].lower().lower())`. -/
def canonicalOf (nfkc : List Char → List Char) (line : List Char) : List Char :=
  collapseWS (lowerStr (tokensOf nfkc line).headI)

/-- The body of the `for line in f` loop:
```
ingrs = normalized.strip().split(",")
canonical = re.sub(r"\s+", " ", ingrs[0].lower().lower())
for ingr in ingrs:
    ingr = ingr.strip().lower().lower()
    ingrsquashed = re.sub(r"\s", "", ingr)
    ingr_dict[ingrsquashed] = canonical
    words.extend(ingr.split())
```
(`.lower().lower()` equals a single `.lower()` since lowering is
idempotent; the model applies it once). -/
def processLine (nfkc : List Char → List Char) (st : ConstructState)
    (line : List Char) : ConstructState :=
  let ingrs := tokensOf nfkc line
  let canonical := collapseWS (lowerStr ingrs.headI)
  ingrs.foldl
    (fun st ingr =>
      let ingr2 := lowerStr (strip ingr)
      let ingrsquashed := squash ingr2
      ⟨(ingrsquashed, canonical) :: st.ingr_dict, st.words ++ splitWS ingr2⟩)
    st

/-- The whole pass over the input file, starting from the empty dict and
empty word list. -/
def run (nfkc : List Char → List Char) (lines : List (List Char)) : ConstructState :=
  lines.foldl (processLine nfkc) ⟨[], []⟩

/-- Dict lookup on the association-list model: value of the most recent
assignment. -/
def lookupA (k : List Char) : List (List Char × List Char) → Option (List Char)
  | [] => none
  | p :: rest => if p.1 = k then some p.2 else lookupA k rest

/-- The alias keys contributed by one line, in token order. -/
def keysOf (nfkc : List Char → List Char) (line : List Char) : List (List Char) :=
  (tokensOf nfkc line).map (fun t => squash (lowerStr (strip t)))

/-- The dict entries contributed by one line, in token order. -/
def lineEntries (nfkc : List Char → List Char) (line : List Char) :
    List (List Char × List Char) :=
  (keysOf nfkc line).map (fun k => (k, canonicalOf nfkc line))

/-- The words contributed by one line, in token order then split order. -/
def lineWords (nfkc : List Char → List Char) (line : List Char) : List (List Char) :=
  ((tokensOf nfkc line).map (fun t => splitWS (lowerStr (strip t)))).flatten

/-! ### JSON serialization of the alias map

`json.dump(ingr_dict, open("ingredients.json", "w"))` writes the dict as a
flat JSON object (`ensure_ascii=True`, default separators `", "`, `": "`),
and `json.load` reads it back.  The dict items are recovered from the
association-list history: keys in first-insertion order, each with its
latest value.  Rendering and parsing are modelled at the character level,
with the full escaping rules of the serializer. -/

/-- Keys in order of first occurrence, given the already-seen keys. -/
def firstKeysAux : List (List Char) → List (List Char) → List (List Char)
  | [], _ => []
  | k :: ks, seen =>
    if k ∈ seen then firstKeysAux ks seen else k :: firstKeysAux ks (k :: seen)

/-- The items of the Python dict modelled by the assignment history `d`:
keys in first-insertion (chronological) order, each bound to the value of
its most recent assignment. -/
def dictItems (d : List (List Char × List Char)) : List (List Char × List Char) :=
  (firstKeysAux (d.reverse.map Prod.fst) []).map fun k => (k, (lookupA k d).getD [])

/-- Lower-case hexadecimal digit, as written by the serializer. -/
def hexDigit (n : Nat) : Char :=
  if n < 10 then Char.ofNat (48 + n) else Char.ofNat (87 + n)

/-- Four-digit lower-case hexadecimal rendering of `n < 65536`. -/
def toHex4 (n : Nat) : List Char :=
  [hexDigit (n / 4096 % 16), hexDigit (n / 256 % 16), hexDigit (n / 16 % 16),
   hexDigit (n % 16)]

/-- Serializer escaping of one character (`ensure_ascii=True`): `"`, `\`
and the control shorthands get two-character escapes, printable ASCII is
written literally, and everything else becomes `\uXXXX`, using a surrogate
pair for characters beyond the basic multilingual plane. -/
def escapeChar (c : Char) : List Char :=
  if c = '"' then ['\\', '"']
  else if c = '\\' then ['\\', '\\']
  else if c = '\n' then ['\\', 'n']
  else if c = '\t' then ['\\', 't']
  else if c = '\r' then ['\\', 'r']
  else if c = '\x08' then ['\\', 'b']
  else if c = '\x0c' then ['\\', 'f']
  else if 32 ≤ c.toNat ∧ c.toNat ≤ 126 then [c]
  else if c.toNat < 65536 then '\\' :: 'u' :: toHex4 c.toNat
  else
    ('\\' :: 'u' :: toHex4 (55296 + (c.toNat - 65536) / 1024))
      ++ ('\\' :: 'u' :: toHex4 (56320 + (c.toNat - 65536) % 1024))

/-- A JSON string literal: `"` , escaped characters, `"`. -/
def renderString (s : List Char) : List Char :=
  '"' :: (s.map escapeChar).flatten ++ ['"']

/-- One `"key": "value"` item. -/
def renderItem (p : List Char × List Char) : List Char :=
  renderString p.1 ++ ':' :: ' ' :: renderString p.2

/-- The items of an object, separated by `", "`. -/
def renderItems : List (List Char × List Char) → List Char
  | [] => []
  | p :: ps =>
    match ps with
    | [] => renderItem p
    | _ :: _ => renderItem p ++ ',' :: ' ' :: renderItems ps

/-- The serialized object: opening brace, the items, closing brace. -/
def renderObj (items : List (List Char × List Char)) : List Char :=
  '\x7b' :: renderItems items ++ ['\x7d']

/-- Value of one hexadecimal digit (the deserializer accepts both cases). -/
def fromHexDigit (c : Char) : Option Nat :=
  if 48 ≤ c.toNat ∧ c.toNat ≤ 57 then some (c.toNat - 48)
  else if 97 ≤ c.toNat ∧ c.toNat ≤ 102 then some (c.toNat - 87)
  else if 65 ≤ c.toNat ∧ c.toNat ≤ 70 then some (c.toNat - 55)
  else none

/-- The character denoted by a two-character escape. -/
def unescapeChar (e : Char) : Option Char :=
  if e = '"' then some '"'
  else if e = '\\' then some '\\'
  else if e = '/' then some '/'
  else if e = 'b' then some '\x08'
  else if e = 'f' then some '\x0c'
  else if e = 'n' then some '\n'
  else if e = 'r' then some '\r'
  else if e = 't' then some '\t'
  else none

/-- Parse four hexadecimal digits into their value. -/
def decodeU : List Char → Option (Nat × List Char)
  | h1 :: h2 :: h3 :: h4 :: rest =>
    match fromHexDigit h1, fromHexDigit h2, fromHexDigit h3, fromHexDigit h4 with
    | some d1, some d2, some d3, some d4 =>
      some (((d1 * 16 + d2) * 16 + d3) * 16 + d4, rest)
    | _, _, _, _ => none
  | _ => none

/-- Decode one character of a JSON string body: a literal character, a
two-character escape, or a `\uXXXX` escape, recombining a high surrogate
followed by a low surrogate into one character (unpaired surrogates are
rejected).  A closing `"` decodes nothing. -/
def decodeOne : List Char → Option (Char × List Char)
  | [] => none
  | c :: rest =>
    if c = '"' then none
    else if c = '\\' then
      match rest with
      | [] => none
      | e :: rest2 =>
        if e = 'u' then
          match decodeU rest2 with
          | none => none
          | some (n, rest3) =>
            if 55296 ≤ n ∧ n < 56320 then
              match rest3 with
              | b1 :: u1 :: rest4 =>
                if b1 = '\\' ∧ u1 = 'u' then
                  match decodeU rest4 with
                  | none => none
                  | some (m, rest5) =>
                    if 56320 ≤ m ∧ m < 57344 then
                      some (Char.ofNat (65536 + (n - 55296) * 1024 + (m - 56320)), rest5)
                    else none
                else none
              | _ => none
            else if 56320 ≤ n ∧ n < 57344 then none
            else some (Char.ofNat n, rest3)
        else
          match unescapeChar e with
          | some ch => some (ch, rest2)
          | none => none
    else some (c, rest)

/-- Parse the body of a JSON string literal up to its closing `"`,
returning the decoded characters and the remaining input.  `fuel` bounds
the number of decoded characters; every decoding step consumes at least
one input character, so `fuel` larger than the input length is always
sufficient. -/
def parseSBody : Nat → List Char → Option (List Char × List Char)
  | 0, _ => none
  | fuel + 1, s =>
    match s with
    | [] => none
    | c :: rest =>
      if c = '"' then some ([], rest)
      else
        match decodeOne (c :: rest) with
        | none => none
        | some (ch, rest2) => (parseSBody fuel rest2).map fun q => (ch :: q.1, q.2)

/-- Parse a JSON string literal. -/
def parseJString : List Char → Option (List Char × List Char)
  | [] => none
  | c :: rest => if c = '"' then parseSBody (rest.length + 1) rest else none

/-- Parse one `"key": "value"` item. -/
def parseItemPair (s : List Char) : Option ((List Char × List Char) × List Char) :=
  match parseJString s with
  | none => none
  | some (k, rest1) =>
    match rest1 with
    | c1 :: c2 :: rest2 =>
      if c1 = ':' ∧ c2 = ' ' then
        match parseJString rest2 with
        | none => none
        | some (v, rest3) => some ((k, v), rest3)
      else none
    | _ => none

/-- Parse a nonempty `", "`-separated item sequence up to the closing `}`;
`fuel` bounds the number of items. -/
def parseItemsAux : Nat → List Char → Option (List (List Char × List Char) × List Char)
  | 0, _ => none
  | fuel + 1, s =>
    match parseItemPair s with
    | none => none
    | some (p, rest) =>
      match rest with
      | [] => none
      | c :: rest2 =>
        if c = '\x7d' then some ([p], rest2)
        else
          match rest2 with
          | [] => none
          | c2 :: rest3 =>
            if c = ',' ∧ c2 = ' ' then
              (parseItemsAux fuel rest3).map fun q => (p :: q.1, q.2)
            else none

/-- Parse a flat JSON object of strings into its item list. -/
def parseObj : List Char → Option (List (List Char × List Char) × List Char)
  | [] => none
  | c :: rest =>
    if c = '\x7b' then
      match rest with
      | [] => none
      | d :: rest2 =>
        if d = '\x7d' then some ([], rest2)
        else parseItemsAux (d :: rest2).length (d :: rest2)
    else none

/-! ### Unfolding the pass -/

lemma foldl_entries (canonical : List Char) (toks : List (List Char))
    (st : ConstructState) :
    toks.foldl
      (fun st ingr =>
        let ingr2 := lowerStr (strip ingr)
        let ingrsquashed := squash ingr2
        ⟨(ingrsquashed, canonical) :: st.ingr_dict, st.words ++ splitWS ingr2⟩)
      st
    = ⟨(toks.map (fun t => (squash (lowerStr (strip t)), canonical))).reverse
         ++ st.ingr_dict,
       st.words ++ (toks.map (fun t => splitWS (lowerStr (strip t)))).flatten⟩ := by
  induction toks generalizing st with
  | nil => simp
  | cons t ts ih => simp [ih]

lemma processLine_eq (nfkc : List Char → List Char) (st : ConstructState)
    (line : List Char) :
    processLine nfkc st line =
      ⟨(lineEntries nfkc line).reverse ++ st.ingr_dict,
       st.words ++ lineWords nfkc line⟩ := by
  simp [processLine, lineEntries, lineWords, keysOf, canonicalOf, foldl_entries,
    List.map_map, Function.comp]

lemma run_eq_aux (nfkc : List Char → List Char) (lines : List (List Char))
    (st : ConstructState) :
    lines.foldl (processLine nfkc) st =
      ⟨((lines.map (lineEntries nfkc)).flatten).reverse ++ st.ingr_dict,
       st.words ++ (lines.map (lineWords nfkc)).flatten⟩ := by
  induction lines generalizing st with
  | nil => simp
  | cons l ls ih => simp [ih, processLine_eq, List.reverse_append]

lemma run_eq (nfkc : List Char → List Char) (lines : List (List Char)) :
    run nfkc lines =
      ⟨((lines.map (lineEntries nfkc)).flatten).reverse,
       (lines.map (lineWords nfkc)).flatten⟩ := by
  simpa [run] using run_eq_aux nfkc lines ⟨[], []⟩

/-! ### Lookup lemmas -/

lemma lookupA_eq_none (k : List Char) (l : List (List Char × List Char))
    (h : ∀ p ∈ l, p.1 ≠ k) : lookupA k l = none := by
  induction l with
  | nil => rfl
  | cons p rest ih =>
    have hp : p.1 ≠ k := h p (List.mem_cons_self p rest)
    simp only [lookupA, if_neg hp]
    exact ih fun q hq => h q (List.mem_cons_of_mem p hq)

lemma lookupA_append_none (k : List Char) (l1 l2 : List (List Char × List Char))
    (h : lookupA k l1 = none) : lookupA k (l1 ++ l2) = lookupA k l2 := by
  induction l1 with
  | nil => simp
  | cons p rest ih =>
    by_cases hp : p.1 = k
    · simp only [lookupA, if_pos hp] at h
      exact absurd h (by simp)
    · simp only [lookupA, if_neg hp] at h
      simp only [List.cons_append, lookupA, if_neg hp]
      exact ih h

lemma lookupA_uniform (k v : List Char) (l1 l2 : List (List Char × List Char))
    (hmem : k ∈ l1.map Prod.fst) (hval : ∀ p ∈ l1, p.2 = v) :
    lookupA k (l1 ++ l2) = some v := by
  induction l1 with
  | nil => simp at hmem
  | cons p rest ih =>
    by_cases hp : p.1 = k
    · simp only [List.cons_append, lookupA, if_pos hp]
      exact congrArg some (hval p (List.mem_cons_self p rest))
    · have hk : k ∈ rest.map Prod.fst := by
        rcases List.mem_map.1 hmem with ⟨q, hq, hqk⟩
        rcases List.mem_cons.1 hq with h1 | h2
        · exact absurd (h1 ▸ hqk) hp
        · exact List.mem_map.2 ⟨q, h2, hqk⟩
      simp only [List.cons_append, lookupA, if_neg hp]
      exact ih hk fun q hq => hval q (List.mem_cons_of_mem p hq)

/-- In the final dict, the binding of a key `k` contributed by `line` is
`canonicalOf line` provided no later line contributes `k` again. -/
lemma lookup_run_last (nfkc : List Char → List Char) (pre post : List (List Char))
    (line k : List Char) (hk : k ∈ keysOf nfkc line)
    (hpost : ∀ l ∈ post, k ∉ keysOf nfkc l) :
    lookupA k (run nfkc (pre ++ line :: post)).ingr_dict
      = some (canonicalOf nfkc line) := by
  rw [run_eq]
  dsimp only
  rw [List.map_append, List.map_cons, List.flatten_append, List.flatten_cons,
    List.reverse_append, List.reverse_append, List.append_assoc]
  have hnone : lookupA k ((post.map (lineEntries nfkc)).flatten.reverse) = none := by
    apply lookupA_eq_none
    intro p hp hpk
    rw [List.mem_reverse] at hp
    rcases List.mem_flatten.1 hp with ⟨es, hes, hpes⟩
    rcases List.mem_map.1 hes with ⟨l, hl, rfl⟩
    simp only [lineEntries] at hpes
    rcases List.mem_map.1 hpes with ⟨k2, hk2, rfl⟩
    exact hpost l hl (hpk ▸ hk2)
  rw [lookupA_append_none _ _ _ hnone]
  apply lookupA_uniform
  · refine List.mem_map.2 ⟨(k, canonicalOf nfkc line), ?_, rfl⟩
    rw [List.mem_reverse]
    exact List.mem_map.2 ⟨k, hk, rfl⟩
  · intro p hp
    rw [List.mem_reverse] at hp
    simp only [lineEntries] at hp
    rcases List.mem_map.1 hp with ⟨k2, hk2, rfl⟩
    rfl

/-! ### Splitting and stripping lemmas -/

lemma splitComma_no_comma (s : List Char) (h : ',' ∉ s) : splitComma s = [s] := by
  induction s with
  | nil => rfl
  | cons c cs ih =>
    have hc : ¬(c = ',') := fun hc => h (by simp [hc])
    have hcs := ih fun hm => h (List.mem_cons_of_mem c hm)
    simp only [splitComma, if_neg hc, hcs]

lemma dropWS_all (s : List Char) (h : ∀ c ∈ s, isWS c) : dropWS s = [] := by
  induction s with
  | nil => rfl
  | cons c cs ih =>
    simp only [dropWS, if_pos (h c (List.mem_cons_self c cs))]
    exact ih fun d hd => h d (List.mem_cons_of_mem c hd)

lemma strip_all_ws (s : List Char) (h : ∀ c ∈ s, isWS c) : strip s = [] := by
  simp [strip, dropWS_all s h, dropWS]

/-! ### JSON round-trip lemmas -/

lemma fromHexDigit_hexDigit (k : Nat) (h : k < 16) :
    fromHexDigit (hexDigit k) = some k := by
  interval_cases k <;> decide

lemma decodeU_toHex4 (n : Nat) (h : n < 65536) (rest : List Char) :
    decodeU (toHex4 n ++ rest) = some (n, rest) := by
  have ha := fromHexDigit_hexDigit (n / 4096 % 16) (by omega)
  have hb := fromHexDigit_hexDigit (n / 256 % 16) (by omega)
  have hc := fromHexDigit_hexDigit (n / 16 % 16) (by omega)
  have hd := fromHexDigit_hexDigit (n % 16) (by omega)
  have hrec : ((n / 4096 % 16 * 16 + n / 256 % 16) * 16
      + n / 16 % 16) * 16 + n % 16 = n := by omega
  simp [toHex4, decodeU, ha, hb, hc, hd, hrec]

lemma decodeOne_escape (c : Char) (rest : List Char) :
    decodeOne (escapeChar c ++ rest) = some (c, rest) := by
  by_cases h1 : c = '"'
  · subst h1; simp [escapeChar, decodeOne, unescapeChar]
  by_cases h2 : c = '\\'
  · subst h2; simp [escapeChar, decodeOne, unescapeChar, h1]
  by_cases h3 : c = '\n'
  · subst h3; simp [escapeChar, decodeOne, unescapeChar, h1, h2]
  by_cases h4 : c = '\t'
  · subst h4; simp [escapeChar, decodeOne, unescapeChar, h1, h2, h3]
  by_cases h5 : c = '\r'
  · subst h5; simp [escapeChar, decodeOne, unescapeChar, h1, h2, h3, h4]
  by_cases h6 : c = '\x08'
  · subst h6; simp [escapeChar, decodeOne, unescapeChar, h1, h2, h3, h4, h5]
  by_cases h7 : c = '\x0c'
  · subst h7; simp [escapeChar, decodeOne, unescapeChar, h1, h2, h3, h4, h5, h6]
  by_cases h8 : 32 ≤ c.toNat ∧ c.toNat ≤ 126
  · simp [escapeChar, decodeOne, h1, h2, h3, h4, h5, h6, h7, h8]
  have hv : c.toNat < 55296 ∨ (57344 ≤ c.toNat ∧ c.toNat < 1114112) := c.valid
  by_cases h9 : c.toNat < 65536
  · have hs1 : ¬(55296 ≤ c.toNat ∧ c.toNat < 56320) := by omega
    have hs2 : ¬(56320 ≤ c.toNat ∧ c.toNat < 57344) := by omega
    simp [escapeChar, h1, h2, h3, h4, h5, h6, h7, h8, h9, decodeOne,
      decodeU_toHex4 c.toNat h9, hs1, hs2, Char.ofNat_toNat]
  · have hhi : 55296 ≤ 55296 + (c.toNat - 65536) / 1024
        ∧ 55296 + (c.toNat - 65536) / 1024 < 56320 := by omega
    have hlo : 56320 ≤ 56320 + (c.toNat - 65536) % 1024
        ∧ 56320 + (c.toNat - 65536) % 1024 < 57344 := by omega
    simp only [escapeChar, if_neg h1, if_neg h2, if_neg h3, if_neg h4, if_neg h5,
      if_neg h6, if_neg h7, if_neg h8, if_neg h9, List.cons_append, List.append_assoc]
    simp [decodeOne,
      decodeU_toHex4 (55296 + (c.toNat - 65536) / 1024) (by omega),
      decodeU_toHex4 (56320 + (c.toNat - 65536) % 1024) (by omega),
      hhi, hlo]
    rw [(by omega : 65536 + (c.toNat - 65536) / 1024 * 1024 + (c.toNat - 65536) % 1024
      = c.toNat), Char.ofNat_toNat]

lemma escapeChar_head (c : Char) :
    ∃ e0 etail, escapeChar c = e0 :: etail ∧ e0 ≠ '"' := by
  unfold escapeChar
  split_ifs with h1 h2 h3 h4 h5 h6 h7 h8 h9
  · exact ⟨'\\', _, rfl, by decide⟩
  · exact ⟨'\\', _, rfl, by decide⟩
  · exact ⟨'\\', _, rfl, by decide⟩
  · exact ⟨'\\', _, rfl, by decide⟩
  · exact ⟨'\\', _, rfl, by decide⟩
  · exact ⟨'\\', _, rfl, by decide⟩
  · exact ⟨'\\', _, rfl, by decide⟩
  · exact ⟨c, [], rfl, h1⟩
  · exact ⟨'\\', _, rfl, by decide⟩
  · exact ⟨'\\', _, rfl, by decide⟩

lemma escapeChar_length_pos (c : Char) : 1 ≤ (escapeChar c).length := by
  unfold escapeChar
  split_ifs <;> simp [toHex4]

lemma flatten_escape_length (s : List Char) :
    s.length ≤ ((s.map escapeChar).flatten).length := by
  induction s with
  | nil => simp
  | cons c cs ih =>
    have := escapeChar_length_pos c
    simp only [List.map_cons, List.flatten_cons, List.length_append, List.length_cons]
    omega

lemma parseSBody_render (s : List Char) :
    ∀ (rest : List Char) (fuel : Nat), s.length + 1 ≤ fuel →
    parseSBody fuel ((s.map escapeChar).flatten ++ '"' :: rest) = some (s, rest) := by
  induction s with
  | nil =>
    intro rest fuel hf
    cases fuel with
    | zero => simp at hf
    | succ f => simp [parseSBody]
  | cons c cs ih =>
    intro rest fuel hf
    cases fuel with
    | zero => simp at hf
    | succ f =>
      have hd := decodeOne_escape c ((cs.map escapeChar).flatten ++ '"' :: rest)
      rcases escapeChar_head c with ⟨e0, etail, he, hne⟩
      rw [List.map_cons, List.flatten_cons, List.append_assoc, he, List.cons_append]
      simp only [parseSBody, if_neg hne]
      rw [← List.cons_append, ← he, hd]
      have hlen : cs.length + 1 ≤ f := by
        simp only [List.length_cons] at hf
        omega
      simp [ih rest f hlen]

lemma parse_render_string (s rest : List Char) :
    parseJString (renderString s ++ rest) = some (s, rest) := by
  simp only [renderString, List.cons_append, List.append_assoc, List.singleton_append]
  simp only [parseJString, if_pos rfl]
  apply parseSBody_render
  have := flatten_escape_length s
  simp only [List.length_append, List.length_cons]
  omega

lemma parse_render_item (p : List Char × List Char) (rest : List Char) :
    parseItemPair (renderItem p ++ rest) = some (p, rest) := by
  simp [renderItem, parseItemPair, List.append_assoc, parse_render_string]

lemma renderItems_single (p : List Char × List Char) :
    renderItems [p] = renderItem p := by
  simp only [renderItems]

lemma renderItems_pair (p q : List Char × List Char)
    (qs : List (List Char × List Char)) :
    renderItems (p :: q :: qs) = renderItem p ++ ',' :: ' ' :: renderItems (q :: qs) := by
  simp only [renderItems]

lemma renderItems_cons_head (p : List Char × List Char)
    (ps : List (List Char × List Char)) :
    ∃ tail, renderItems (p :: ps) = '"' :: tail := by
  cases ps with
  | nil => exact ⟨_, rfl⟩
  | cons q qs =>
    rw [renderItems_pair]
    exact ⟨_, rfl⟩

lemma renderItems_length (items : List (List Char × List Char)) :
    items.length ≤ (renderItems items).length := by
  induction items with
  | nil => simp [renderItems]
  | cons p ps ih =>
    cases ps with
    | nil =>
      rw [renderItems_single]
      simp [renderItem, renderString]
    | cons q qs =>
      rw [renderItems_pair]
      simp only [List.length_append, List.length_cons] at ih ⊢
      omega

lemma parse_render_items (items : List (List Char × List Char)) :
    ∀ (rest : List Char) (fuel : Nat), items ≠ [] → items.length ≤ fuel →
    parseItemsAux fuel (renderItems items ++ '\x7d' :: rest) = some (items, rest) := by
  induction items with
  | nil => intro rest fuel h; exact absurd rfl h
  | cons p ps ih =>
    intro rest fuel _ hf
    cases fuel with
    | zero => simp at hf
    | succ fuel =>
      cases ps with
      | nil =>
        rw [renderItems_single]
        simp [parseItemsAux, parse_render_item]
      | cons q qs =>
        have hlen : (q :: qs).length ≤ fuel := by
          simp only [List.length_cons] at hf ⊢
          omega
        rw [renderItems_pair]
        simp [parseItemsAux, List.append_assoc, parse_render_item,
          ih rest fuel (by simp) hlen]

lemma parse_render_obj (items : List (List Char × List Char)) :
    parseObj (renderObj items) = some (items, []) := by
  cases items with
  | nil => simp [renderObj, renderItems, parseObj]
  | cons p ps =>
    rcases renderItems_cons_head p ps with ⟨tail, htail⟩
    have hshape : renderObj (p :: ps) = '\x7b' :: ('"' :: (tail ++ ['\x7d'])) := by
      simp [renderObj, htail]
    rw [hshape]
    have hne : ('"' : Char) ≠ '\x7d' := by decide
    simp only [parseObj, if_pos rfl, if_neg hne]
    have hback : '"' :: (tail ++ ['\x7d']) = renderItems (p :: ps) ++ '\x7d' :: [] := by
      simp [htail]
    rw [hback]
    apply parse_render_items (p :: ps) [] _ (by simp)
    have h1 := renderItems_length (p :: ps)
    simp only [List.length_cons] at h1
    simp only [List.length_append, List.length_cons, List.length_nil]
    omega

/-! ### Dict-items lemmas -/

lemma mem_firstKeysAux (k : List Char) (ks : List (List Char)) :
    ∀ seen, k ∈ firstKeysAux ks seen ↔ (k ∈ ks ∧ k ∉ seen) := by
  induction ks with
  | nil => intro seen; simp [firstKeysAux]
  | cons a as ih =>
    intro seen
    by_cases ha : a ∈ seen
    · rw [firstKeysAux, if_pos ha, ih]
      constructor
      · rintro ⟨hk, hs⟩
        exact ⟨List.mem_cons_of_mem a hk, hs⟩
      · rintro ⟨hk, hs⟩
        rcases List.mem_cons.1 hk with rfl | hk2
        · exact absurd ha hs
        · exact ⟨hk2, hs⟩
    · rw [firstKeysAux, if_neg ha]
      constructor
      · intro hk
        rcases List.mem_cons.1 hk with rfl | hk2
        · exact ⟨List.mem_cons_self k as, ha⟩
        · rcases (ih (a :: seen)).1 hk2 with ⟨hk3, hs3⟩
          exact ⟨List.mem_cons_of_mem a hk3,
            fun hs => hs3 (List.mem_cons_of_mem a hs)⟩
      · rintro ⟨hk, hs⟩
        rcases List.mem_cons.1 hk with rfl | hk2
        · exact List.mem_cons_self k _
        · by_cases hka : k = a
          · subst hka; exact List.mem_cons_self k _
          · refine List.mem_cons_of_mem a ((ih (a :: seen)).2 ⟨hk2, ?_⟩)
            intro hs2
            rcases List.mem_cons.1 hs2 with h | h
            · exact hka h
            · exact hs h

lemma lookupA_isSome (k : List Char) (d : List (List Char × List Char))
    (h : k ∈ d.map Prod.fst) : ∃ v, lookupA k d = some v := by
  induction d with
  | nil => simp at h
  | cons p rest ih =>
    by_cases hp : p.1 = k
    · exact ⟨p.2, by simp [lookupA, hp]⟩
    · rcases List.mem_map.1 h with ⟨q, hq, hqk⟩
      rcases List.mem_cons.1 hq with rfl | h2
      · exact absurd hqk hp
      · rcases ih (List.mem_map.2 ⟨q, h2, hqk⟩) with ⟨v, hv⟩
        exact ⟨v, by simp [lookupA, hp, hv]⟩

lemma lookupA_map_keys (k : List Char) (d : List (List Char × List Char)) :
    ∀ ks : List (List Char), k ∈ ks →
    lookupA k (ks.map fun k2 => (k2, (lookupA k2 d).getD []))
      = some ((lookupA k d).getD []) := by
  intro ks
  induction ks with
  | nil => simp
  | cons a as ih =>
    intro hm
    by_cases hak : a = k
    · subst hak; simp [lookupA]
    · rcases List.mem_cons.1 hm with rfl | hm2
      · exact absurd rfl hak
      · simp only [List.map_cons, lookupA, if_neg hak]
        exact ih hm2

lemma lookupA_dictItems (k : List Char) (d : List (List Char × List Char))
    (h : k ∈ d.map Prod.fst) : lookupA k (dictItems d) = lookupA k d := by
  have hmem : k ∈ firstKeysAux (d.reverse.map Prod.fst) [] := by
    rw [mem_firstKeysAux]
    refine ⟨?_, by simp⟩
    rw [List.map_reverse, List.mem_reverse]
    exact h
  rw [dictItems, lookupA_map_keys k d _ hmem]
  rcases lookupA_isSome k d h with ⟨v, hv⟩
  rw [hv]
  rfl

/-- Membership of an alias key in the final dict, from any token of any
input line. -/
lemma mem_run_keys (nfkc : List Char → List Char) (lines : List (List Char))
    (line tok : List Char) (hline : line ∈ lines)
    (htok : tok ∈ tokensOf nfkc line) :
    squash (lowerStr (strip tok)) ∈ (run nfkc lines).ingr_dict.map Prod.fst := by
  have hkey : squash (lowerStr (strip tok)) ∈ keysOf nfkc line :=
    List.mem_map.2 ⟨tok, htok, rfl⟩
  rw [run_eq]
  dsimp only
  rw [List.map_reverse, List.mem_reverse]
  refine List.mem_map.2 ⟨(squash (lowerStr (strip tok)), canonicalOf nfkc line), ?_, rfl⟩
  refine List.mem_flatten.2 ⟨lineEntries nfkc line, ?_, ?_⟩
  · exact List.mem_map.2 ⟨line, hline, rfl⟩
  · exact List.mem_map.2 ⟨squash (lowerStr (strip tok)), hkey, rfl⟩

/-! ### Claim theorems -/

/-- C1, as stated, is false: the value bound to an alias key equals the
canonical form of its originating line only while no later line produces the
same key.  Counterexample: token `x` of line `a,x` originates canonical `a`,
but after the later line `b,x` the final map binds key `x` to `b`. -/
theorem alias_key_value_counterexample :
    ("x".data ∈ tokensOf id "a,x".data)
    ∧ canonicalOf id "a,x".data = "a".data
    ∧ lookupA "x".data (run id ["a,x".data, "b,x".data]).ingr_dict = some "b".data
    ∧ some "b".data ≠ some ("a".data) := by decide

/-- C1 (amended): for every input line and every comma-separated token of
that line, the lowercased all-whitespace-removed form of the token appears as
a key in the final alias map; and provided no later line produces that same
alias key, its value equals the canonical form of its originating line. -/
theorem alias_key_value (nfkc : List Char → List Char)
    (pre post : List (List Char)) (line tok : List Char)
    (htok : tok ∈ tokensOf nfkc line) :
    squash (lowerStr (strip tok))
        ∈ (run nfkc (pre ++ line :: post)).ingr_dict.map Prod.fst
    ∧ ((∀ l ∈ post, squash (lowerStr (strip tok)) ∉ keysOf nfkc l) →
        lookupA (squash (lowerStr (strip tok)))
            (run nfkc (pre ++ line :: post)).ingr_dict
          = some (canonicalOf nfkc line)) := by
  have hkey : squash (lowerStr (strip tok)) ∈ keysOf nfkc line :=
    List.mem_map.2 ⟨tok, htok, rfl⟩
  refine ⟨mem_run_keys nfkc (pre ++ line :: post) line tok (by simp) htok, ?_⟩
  intro hpost
  exact lookup_run_last nfkc pre post line _ hkey hpost

/-- Witness for C1: in the single-line input `Tomato, tomatoes , ROMA TOMATO`,
the token ` tomatoes ` yields key `tomatoes`, present in the final map with
value `tomato`. -/
theorem alias_key_value_witness :
    (" tomatoes ".data ∈ tokensOf id "Tomato, tomatoes , ROMA TOMATO".data)
    ∧ lookupA "tomatoes".data
        (run id ["Tomato, tomatoes , ROMA TOMATO".data]).ingr_dict
      = some "tomato".data := by
  refine ⟨by decide, ?_⟩
  exact (alias_key_value id [] [] "Tomato, tomatoes , ROMA TOMATO".data
    " tomatoes ".data (by decide)).2 fun l hl => absurd hl (List.not_mem_nil l)

/-- C2: the word list is the in-order concatenation, over lines then tokens,
of the whitespace-split sub-words of each lowercased trimmed token, and its
length is the total sub-word count (duplicates kept). -/
theorem words_concat (nfkc : List Char → List Char) (lines : List (List Char)) :
    (run nfkc lines).words
      = (lines.map (fun line =>
          ((tokensOf nfkc line).map (fun t => splitWS (lowerStr (strip t)))).flatten)).flatten
    ∧ (run nfkc lines).words.length
      = (lines.map (fun line =>
          ((tokensOf nfkc line).map
            (fun t => (splitWS (lowerStr (strip t))).length)).sum)).sum := by
  constructor
  · rw [run_eq]
    exact rfl
  · rw [run_eq]
    simp [lineWords, List.length_flatten, List.map_map, Function.comp_def]

/-- C3: when two or more lines produce the same alias key, the final map
binds that key to the canonical form of the line processed last in file
order; no error is raised. -/
theorem last_write_wins (nfkc : List Char → List Char)
    (pre mid post : List (List Char)) (line1 line2 k : List Char)
    (_h1 : k ∈ keysOf nfkc line1) (h2 : k ∈ keysOf nfkc line2)
    (hpost : ∀ l ∈ post, k ∉ keysOf nfkc l) :
    lookupA k (run nfkc (pre ++ line1 :: mid ++ line2 :: post)).ingr_dict
      = some (canonicalOf nfkc line2) := by
  have h := lookup_run_last nfkc (pre ++ line1 :: mid) post line2 k h2 hpost
  simpa [List.append_assoc, List.cons_append] using h

/-- Witness for C3: `Onion,onion` then `Red Onion,onion` both yield key
`onion`; the final value is `red onion`, from the last line. -/
theorem last_write_wins_witness :
    ("onion".data ∈ keysOf id "Onion,onion".data)
    ∧ ("onion".data ∈ keysOf id "Red Onion,onion".data)
    ∧ lookupA "onion".data
        (run id ["Onion,onion".data, "Red Onion,onion".data]).ingr_dict
      = some "red onion".data := by
  refine ⟨by decide, by decide, ?_⟩
  exact last_write_wins id [] [] [] "Onion,onion".data "Red Onion,onion".data
    "onion".data (by decide) (by decide) fun l hl => absurd hl (List.not_mem_nil l)

/-- C4: for every line, every alias entry the line stores carries the
value obtained from the first comma-separated token of the line by lowercasing
and collapsing each maximal whitespace run to a single space — with no
further transformation (in particular no trimming). -/
theorem canonical_form_stored (nfkc : List Char → List Char)
    (st : ConstructState) (line : List Char) :
    (processLine nfkc st line).ingr_dict
      = ((keysOf nfkc line).map
          (fun k => (k, collapseWS (lowerStr (tokensOf nfkc line).headI)))).reverse
        ++ st.ingr_dict := by
  rw [processLine_eq]
  exact rfl

/-- C5: each raw line is normalized (`nfkc`), stripped, then split on the
literal comma; a line whose stripped normalized form has no comma yields
exactly the one-element token sequence. -/
theorem line_tokenization (nfkc : List Char → List Char) (line : List Char) :
    tokensOf nfkc line = splitComma (strip (nfkc line))
    ∧ (',' ∉ strip (nfkc line) → tokensOf nfkc line = [strip (nfkc line)]) :=
  ⟨rfl, fun h => splitComma_no_comma _ h⟩

/-- Witness for C5: the comma-free line `Salt` yields the single token
`Salt`. -/
theorem line_tokenization_witness :
    (',' ∉ strip (id "Salt".data))
    ∧ tokensOf id "Salt".data = [strip (id "Salt".data)] :=
  ⟨by decide, (line_tokenization id "Salt".data).2 (by decide)⟩

/-- C6: the line `Tomato, tomatoes , ROMA TOMATO` yields canonical `tomato`,
map entries `tomato→tomato`, `tomatoes→tomato`, `romatomato→tomato`, and
words `tomato, tomatoes, roma, tomato` in order; the single-token line
`Salt` yields canonical `salt`, entry `salt→salt`, and the single word
`salt`. -/
theorem tomato_salt_examples :
    canonicalOf id "Tomato, tomatoes , ROMA TOMATO".data = "tomato".data
    ∧ lookupA "tomato".data
        (run id ["Tomato, tomatoes , ROMA TOMATO".data]).ingr_dict
      = some "tomato".data
    ∧ lookupA "tomatoes".data
        (run id ["Tomato, tomatoes , ROMA TOMATO".data]).ingr_dict
      = some "tomato".data
    ∧ lookupA "romatomato".data
        (run id ["Tomato, tomatoes , ROMA TOMATO".data]).ingr_dict
      = some "tomato".data
    ∧ (run id ["Tomato, tomatoes , ROMA TOMATO".data]).words
      = ["tomato".data, "tomatoes".data, "roma".data, "tomato".data]
    ∧ canonicalOf id "Salt".data = "salt".data
    ∧ lookupA "salt".data (run id ["Salt".data]).ingr_dict = some "salt".data
    ∧ (run id ["Salt".data]).words = ["salt".data] := by decide

/-- C9: the first token is taken unstripped, so in `Roma Tomato , tomato`
the canonical form keeps the space before the comma: it is `roma tomato `
(trailing space), and that space-suffixed string is the stored value for
both alias keys of the line. -/
theorem canonical_trailing_space :
    canonicalOf id "Roma Tomato , tomato".data = "roma tomato".data ++ [' ']
    ∧ lookupA "romatomato".data
        (run id ["Roma Tomato , tomato".data]).ingr_dict
      = some ("roma tomato".data ++ [' '])
    ∧ lookupA "tomato".data
        (run id ["Roma Tomato , tomato".data]).ingr_dict
      = some ("roma tomato".data ++ [' ']) := by decide

/-- C10: a line that is all whitespace (after normalization) does change the
state: it inserts the entry mapping the empty key to the empty canonical
form, and appends nothing to the word list. -/
theorem blank_line_state (nfkc : List Char → List Char) (st : ConstructState)
    (line : List Char) (h : ∀ c ∈ nfkc line, isWS c) :
    processLine nfkc st line = ⟨([], []) :: st.ingr_dict, st.words⟩ := by
  have hts : tokensOf nfkc line = [[]] := by
    rw [tokensOf, strip_all_ws _ h]
    rfl
  rw [processLine_eq]
  simp [lineEntries, lineWords, keysOf, canonicalOf, hts, strip, dropWS, squash,
    lowerStr, collapseWS, collapseAux, splitWS, splitWSAux]

/-- Witness for C10: the whitespace-only line `"   "` inserts the entry
`("", "")` and leaves the word list empty. -/
theorem blank_line_state_witness :
    (∀ c ∈ id "   ".data, isWS c)
    ∧ processLine id ⟨[], []⟩ "   ".data = ⟨[([], [])], []⟩ :=
  ⟨by decide, blank_line_state id ⟨[], []⟩ "   ".data (by decide)⟩

/-- C7: the alias map survives serialization: parsing the serialized JSON
object recovers exactly the dict items, and looking up any alias key
derived from a token of the input in those items returns the very value
the pipeline computed for that key (which exists). -/
theorem json_round_trip (nfkc : List Char → List Char) (lines : List (List Char))
    (line tok : List Char) (hline : line ∈ lines)
    (htok : tok ∈ tokensOf nfkc line) :
    parseObj (renderObj (dictItems (run nfkc lines).ingr_dict))
        = some (dictItems (run nfkc lines).ingr_dict, [])
    ∧ lookupA (squash (lowerStr (strip tok))) (dictItems (run nfkc lines).ingr_dict)
        = lookupA (squash (lowerStr (strip tok))) (run nfkc lines).ingr_dict
    ∧ ∃ v, lookupA (squash (lowerStr (strip tok))) (run nfkc lines).ingr_dict
        = some v := by
  have hmem := mem_run_keys nfkc lines line tok hline htok
  exact ⟨parse_render_obj _, lookupA_dictItems _ _ hmem, lookupA_isSome _ _ hmem⟩

/-- Witness for C7: for the single-line input `Salt`, looking up `salt` in
the deserialized items yields `salt`, as the pipeline computed. -/
theorem json_round_trip_witness :
    ("Salt".data ∈ ["Salt".data])
    ∧ ("Salt".data ∈ tokensOf id "Salt".data)
    ∧ lookupA "salt".data (dictItems (run id ["Salt".data]).ingr_dict)
        = some "salt".data := by
  refine ⟨by decide, by decide, ?_⟩
  have h := json_round_trip id ["Salt".data] "Salt".data "Salt".data
    (by decide) (by decide)
  have h2 : lookupA "salt".data (dictItems (run id ["Salt".data]).ingr_dict)
      = lookupA "salt".data (run id ["Salt".data]).ingr_dict := h.2.1
  rw [h2]
  decide

end MunchMates
